import Mathlib

/-
Verification of docs/check_migration_protocol.py: a finite model-checker for a
data-migration protocol.  Six channels (MetaStore) each progress through an
ordered list of states (MetaState).  A precedence table over (channel, state)
pairs is saturated to a transitive closure, a snapshot validator encodes the
safety invariant, and a permutation-driven recursive search explores the
interleavings of single-channel advances from a fixed seed snapshot.

Every definition below is a shallow embedding of the corresponding Python
function; Python dicts become association lists (PMap) or functions, the
mutating closure loop becomes fuel-indexed iteration, and the fatal
sys.exit(1) branch of the search becomes the Boolean result false.
-/

/-- The six channels, in the declaration order of the Python MetaStore enum. -/
inductive MetaStore
  | Ms | Ls | Rs | Md | Ld | Rd
deriving DecidableEq, Repr, Fintype

/-- The shared state enumeration, in the declaration order of the Python
MetaState enum.  Any is a wildcard used only by the tuple matcher. -/
inductive MetaState
  | Start | End | Queue | RedirectToPeer | RedirectToSelf | MgrSet | Slot | MgrSlot | IptSlot | Any
deriving DecidableEq, Repr, Fintype

/-- Iteration order of the MetaStore enum (Python: for s in MetaStore). -/
def MetaStore.all : List MetaStore := [.Ms, .Ls, .Rs, .Md, .Ld, .Rd]

/-- Iteration order of the MetaState enum (Python: for s in MetaState). -/
def MetaState.all : List MetaState :=
  [.Start, .End, .Queue, .RedirectToPeer, .RedirectToSelf, .MgrSet, .Slot, .MgrSlot, .IptSlot, .Any]

/-- Python MetaState.state_eq (lines 44-48): wildcard-tolerant state equality. -/
def state_eq (s1 s2 : MetaState) : Bool :=
  if s1 = MetaState.Any ∨ s2 = MetaState.Any then true else decide (s1 = s2)

/-- A snapshot: one state per channel (Python: dict from MetaStore to MetaState). -/
def States := MetaStore → MetaState

/-- A six-component state tuple in the order Ms, Ls, Rs, Md, Ld, Rd. -/
abbrev Tuple6 := MetaState × MetaState × MetaState × MetaState × MetaState × MetaState

/-- Python MetaState.equal_tuple (lines 29-42): compare the snapshot, read out
in the order Ms, Ls, Rs, Md, Ld, Rd, against a tuple under state_eq. -/
def equal_tuple (s : States) (t : Tuple6) : Bool :=
  state_eq (s .Ms) t.1 && state_eq (s .Ls) t.2.1 && state_eq (s .Rs) t.2.2.1 &&
  state_eq (s .Md) t.2.2.2.1 && state_eq (s .Ld) t.2.2.2.2.1 && state_eq (s .Rd) t.2.2.2.2.2

/-- Python check_redirecting (lines 56-62) on a (manager, local, remote) triple. -/
def check_redirecting (t : MetaState × MetaState × MetaState) : Bool :=
  if t.1 ∈ [MetaState.RedirectToPeer] then true
  else if t.2.1 ∈ [MetaState.Slot, MetaState.MgrSlot, MetaState.IptSlot] then false
  else decide (t.2.2 ∈ [MetaState.Slot, MetaState.MgrSlot, MetaState.IptSlot])

/-- Python check_processing (lines 65-71) on a (manager, local, remote) triple. -/
def check_processing (t : MetaState × MetaState × MetaState) : Bool :=
  if t.1 ∈ [MetaState.RedirectToPeer] then false
  else if t.1 ∈ [MetaState.Queue] then true
  else decide (t.2.1 ∈ [MetaState.Slot, MetaState.MgrSlot, MetaState.IptSlot])

/-- The three hand-listed boundary tuples of validate_states (lines 146-171). -/
def valid_states : List Tuple6 :=
  [ (.Start, .Slot, .Any, .Start, .Start, .Slot),
    (.Start, .MgrSlot, .Any, .Start, .Start, .Slot),
    (.Start, .MgrSlot, .Any, .Start, .Start, .MgrSlot) ]

/-- Python validate_states (lines 145-182): a snapshot is valid when it matches
one of the boundary tuples, or when one of the two triples is processing while
the other is redirecting. -/
def validate_states (s : States) : Bool :=
  if valid_states.any (fun t => equal_tuple s t) then true
  else if check_processing (s .Ms, s .Ls, s .Rs) && check_redirecting (s .Md, s .Ld, s .Rd) then true
  else if check_redirecting (s .Ms, s .Ls, s .Rs) && check_processing (s .Md, s .Ld, s .Rd) then true
  else false

/-- Python gen_store_order (lines 85-93): the declared state sequence of each
channel. -/
def gen_store_order : MetaStore → List MetaState
  | .Ms => [.Start, .MgrSet, .Queue, .RedirectToPeer, .End]
  | .Ls => [.Slot, .MgrSlot, .End]
  | .Rs => [.Start, .IptSlot, .Slot]
  | .Md => [.Start, .RedirectToPeer, .RedirectToSelf, .End]
  | .Ld => [.Start, .IptSlot, .Slot]
  | .Rd => [.Slot, .MgrSlot, .End]

/-- A table key: a (channel, state) pair. -/
abbrev Key := MetaStore × MetaState

/-- One row of the precedence table (Python: the inner dict of the table). -/
abbrev Row := List (Key × Bool)

/-- The precedence table (Python: dict of dicts, in insertion order). -/
abbrev PMap := List (Key × Row)

/-- Look a column up in a row (first matching key, false when absent). -/
def rowGet (r : Row) (b : Key) : Bool :=
  match r with
  | [] => false
  | (k, v) :: rest => if k = b then v else rowGet rest b

/-- Find the row stored under a key (first match). -/
def findRow (m : PMap) (a : Key) : Option Row :=
  match m with
  | [] => none
  | (k, r) :: rest => if k = a then some r else findRow rest a

/-- Read one cell of the table (Python: m[a][b]). -/
def pmGet (m : PMap) (a b : Key) : Bool :=
  match findRow m a with
  | none => false
  | some r => rowGet r b

/-- Write one column of a row (no key is ever inserted; all table keys are
created by the initialization loop). -/
def rowSet (r : Row) (b : Key) (v : Bool) : Row :=
  r.map (fun cl => if cl.1 = b then (cl.1, v) else cl)

/-- Write one cell of the table (Python: m[a][b] = v on an existing cell). -/
def pmSet (m : PMap) (a b : Key) (v : Bool) : PMap :=
  m.map (fun rw => if rw.1 = a then (rw.1, rowSet rw.2 b v) else rw)

/-- All table keys in the iteration order of the initialization loop of
gen_partially_ordered_map (lines 98-102): channels outer, states inner. -/
def allKeys : List Key :=
  MetaStore.all.flatMap (fun s => MetaState.all.map (fun t => (s, t)))

/-- The fully initialized all-False table (lines 97-102). -/
def initTable : PMap :=
  allKeys.map (fun k => (k, allKeys.map (fun k2 => (k2, false))))

/-- The intra-channel seeding loop of gen_partially_ordered_map (lines 104-108):
for every channel, every state of order[:-1] is marked before every state of
order[1:] (a cross product, not only adjacent pairs). -/
def withIntraOrder : PMap :=
  MetaStore.all.foldl
    (fun m store =>
      ((gen_store_order store).dropLast).foldl
        (fun m s1 =>
          ((gen_store_order store).drop 1).foldl
            (fun m s2 => pmSet m (store, s1) (store, s2) true) m) m)
    initTable

/-- The table after the six hand-asserted cross-channel facts (lines 110-118). -/
def basicOrderedMap : PMap :=
  let m := withIntraOrder
  let m := pmSet m (.Rs, .IptSlot) (.Ms, .MgrSet) true
  let m := pmSet m (.Ms, .MgrSet) (.Ls, .MgrSlot) true
  let m := pmSet m (.Rd, .MgrSlot) (.Md, .RedirectToPeer) true
  let m := pmSet m (.Md, .RedirectToPeer) (.Ld, .IptSlot) true
  let m := pmSet m (.Ms, .Queue) (.Md, .RedirectToSelf) true
  let m := pmSet m (.Md, .RedirectToSelf) (.Ms, .RedirectToPeer) true
  m

/-- Python get_table_true_count (lines 123-124): the number of True cells. -/
def get_table_true_count (m : PMap) : Nat :=
  ((m.flatMap (fun r => r.2.map Prod.snd)).filter id).length

/-- The total number of cells of the table, used to bound the closure loop. -/
def totalCells (m : PMap) : Nat :=
  (m.flatMap (fun r => r.2)).length

/-- The keys of the row stored under a key (empty when the row is absent). -/
def rowKeys (m : PMap) (a : Key) : List Key :=
  match findRow m a with
  | none => []
  | some r => r.map Prod.fst

/-- Innermost loop of one closure pass (line 135-137): for every destination
key dk of the row of colKey, when (colKey, dk) currently holds, set
(rowKey, dk).  Reads go to the live table m, as in the Python in-place loop. -/
def dstLoop (rowKey colKey : Key) (dks : List Key) (m : PMap) : PMap :=
  dks.foldl (fun m dk => if pmGet m colKey dk then pmSet m rowKey dk true else m) m

/-- Column step of one closure pass (lines 131-137): when the live cell
(rowKey, cl.1) holds, union in the live row of cl.1. -/
def colStep (m0 : PMap) (rowKey : Key) (m : PMap) (cl : Key × Bool) : PMap :=
  if pmGet m rowKey cl.1 then dstLoop rowKey cl.1 (rowKeys m0 cl.1) m else m

/-- Row step of one closure pass: iterate the columns of one stored row. -/
def rowStep (m0 : PMap) (m : PMap) (rw : Key × Row) : PMap :=
  rw.2.foldl (colStep m0 rw.1) m

/-- One full pass of the closure loop of compute_partially_ordered_map
(lines 130-137), with in-place (live) reads and writes. -/
def closurePass (m0 : PMap) : PMap :=
  m0.foldl (rowStep m0) m0

/-- The while-True loop of compute_partially_ordered_map (lines 129-142),
indexed by fuel: run a pass, return when the True count did not change,
otherwise continue with the new count. -/
def computeAux : Nat → Nat → PMap → PMap
  | 0, _, m => m
  | fuel+1, last_count, m =>
    let m2 := closurePass m
    let count := get_table_true_count m2
    if count = last_count then m2 else computeAux fuel count m2

/-- Python compute_partially_ordered_map (lines 127-142).  The Python loop is
unbounded; totalCells m + 1 passes always suffice (each non-final pass strictly
increases the True count, which is bounded by totalCells), which the
termination theorem below makes precise. -/
def compute_partially_ordered_map (m : PMap) : PMap :=
  computeAux (totalCells m + 1) (get_table_true_count m) m

/-- Python gen_partially_ordered_map (lines 96-120). -/
def gen_partially_ordered_map : PMap :=
  compute_partially_ordered_map basicOrderedMap

/-- The closed precedence table used by the search (line 228). -/
def partial_order_map : PMap :=
  gen_partially_ordered_map

/-- Successor search of get_next_state (lines 192-198): the element after the
first occurrence of curr, none when curr is last or absent. -/
def next_in_list (curr : MetaState) : List MetaState → Option MetaState
  | [] => none
  | [_] => none
  | x :: y :: rest => if x = curr then some y else next_in_list curr (y :: rest)

/-- Python get_next_state (lines 192-198). -/
def get_next_state (ords : MetaStore → List MetaState) (store : MetaStore) (curr : MetaState) :
    Option MetaState :=
  next_in_list curr (ords store)

/-- Python check_order (lines 185-189): true when some channel, at its state in
the current snapshot, precedes the candidate (new_store, new_state) cell. -/
def check_order (curr : States) (new_store : MetaStore) (new_state : MetaState) (m : PMap) : Bool :=
  MetaStore.all.any (fun store => pmGet m (store, curr store) (new_store, new_state))

/-- Copy a snapshot with one channel set to a new state (lines 216-218:
deepcopy followed by a single-key assignment). -/
def updateStates (s : States) (store : MetaStore) (st : MetaState) : States :=
  fun c => if c = store then st else s c

/-- The seed snapshot of check (lines 234-236): every channel at Start except
Ls and Rd at Slot. -/
def seedStates : States
  | .Ls => .Slot
  | .Rd => .Slot
  | _ => .Start

/-- Python recur_check (lines 201-224), fuel-indexed (each recursive call uses
a strictly shorter channel list, so the list length is sufficient fuel).  The
result false models the fatal branch (print and sys.exit(1)): some explored
branch reached a snapshot rejected by validate_states. -/
def recur_check (ords : MetaStore → List MetaState) (mp : PMap) :
    Nat → States → List MetaStore → Bool
  | _, _, [] => true
  | 0, _, _ :: _ => true
  | fuel+1, s, a :: rest =>
    ((a :: rest).permutations).all (fun perm =>
      match perm with
      | [] => true
      | next_store :: stores =>
        match get_next_state ords next_store (s next_store) with
        | none => true
        | some next_state =>
          if check_order s next_store next_state mp then
            let sts := updateStates s next_store next_state
            validate_states sts && recur_check ords mp fuel sts stores
          else true)

/-- Python check (lines 227-239): run the search from the seed snapshot over
all six channels with the closed precedence table. -/
def check : Bool :=
  let states := seedStates
  let next_stores := MetaStore.all
  recur_check gen_store_order partial_order_map next_stores.length states next_stores

/-- A square table: every stored row has exactly the table's key list as its
column keys.  The generated table has this shape by construction. -/
def WellFormed (m : PMap) : Prop :=
  ∀ p ∈ m, p.2.map Prod.fst = m.map Prod.fst

/-- Cell-wise order: same key, and a True value stays True. -/
def CellLe (x y : Key × Bool) : Prop :=
  x.1 = y.1 ∧ (x.2 = true → y.2 = true)

/-- Row-wise order: aligned cells, each related by CellLe. -/
def RowLe (r r2 : Row) : Prop :=
  List.Forall₂ CellLe r r2

/-- Table-wise order: aligned rows with equal keys, each related by RowLe. -/
def MapLe (m m2 : PMap) : Prop :=
  List.Forall₂ (fun R R2 => R.1 = R2.1 ∧ RowLe R.2 R2.2) m m2

/-- The table is bounded above by a Boolean relation on keys. -/
def SubRel (m : PMap) (R : Key → Key → Bool) : Prop :=
  ∀ a b, pmGet m a b = true → R a b = true

/-- A cell of the table exists under a given row key and column key. -/
def HasCell (m : PMap) (a b : Key) : Prop :=
  ∃ r, findRow m a = some r ∧ b ∈ r.map Prod.fst

/-- Channel-level reachability of the closed precedence relation: the pairs of
channels between which the closure holds at least one edge. -/
def storeReaches : MetaStore → MetaStore → Bool
  | .Ms, t => decide (t ∈ [MetaStore.Ms, .Ls, .Md, .Ld])
  | .Ls, t => decide (t = MetaStore.Ls)
  | .Rs, t => decide (t ∈ [MetaStore.Ms, .Ls, .Rs, .Md, .Ld])
  | .Md, t => decide (t ∈ [MetaStore.Ms, .Ls, .Md, .Ld])
  | .Ld, t => decide (t = MetaStore.Ld)
  | .Rd, t => decide (t ∈ [MetaStore.Ms, .Ls, .Md, .Ld, .Rd])

/-- A transitive Boolean relation bounding the closed table from above: an
edge runs from a non-final state of a source channel to a non-initial state of
a channel it reaches. -/
def closedRel (a b : Key) : Bool :=
  storeReaches a.1 b.1 && decide (a.2 ∈ (gen_store_order a.1).dropLast)
    && decide (b.2 ∈ (gen_store_order b.1).drop 1)

/-- Keys free of the wildcard state, as a transitive Boolean bound. -/
def anyFreeRel (a b : Key) : Bool :=
  decide (a.2 ≠ MetaState.Any) && decide (b.2 ≠ MetaState.Any)

/-- Modelled from the spec: s1 occurs strictly before s2 in the declared state
list of channel c (the strict order the Precedence Relation is claimed to
restrict to within one channel). -/
def declared_strictly_before (c : MetaStore) (s1 s2 : MetaState) : Bool :=
  decide (s1 ∈ gen_store_order c) && decide (s2 ∈ gen_store_order c) &&
    decide ((gen_store_order c).indexOf s1 < (gen_store_order c).indexOf s2)

/-- The snapshot described by a boundary tuple, with the wildcard position Rs
instantiated to a concrete state x. -/
def tuple_snapshot (t : Tuple6) (x : MetaState) : States := fun c =>
  match c with
  | .Ms => t.1
  | .Ls => t.2.1
  | .Rs => x
  | .Md => t.2.2.2.1
  | .Ld => t.2.2.2.2.1
  | .Rd => t.2.2.2.2.2

/-- The component of a tuple at a channel position. -/
def tuple_component (t : Tuple6) (p : MetaStore) : MetaState :=
  match p with
  | .Ms => t.1
  | .Ls => t.2.1
  | .Rs => t.2.2.1
  | .Md => t.2.2.2.1
  | .Ld => t.2.2.2.2.1
  | .Rd => t.2.2.2.2.2

/-- A tiny concrete square table used to exercise the closure loop on a
concrete input. -/
def sampleTable : PMap :=
  [ ((MetaStore.Ms, MetaState.Start),
      [((MetaStore.Ms, MetaState.Start), false), ((MetaStore.Ms, MetaState.End), true)]),
    ((MetaStore.Ms, MetaState.End),
      [((MetaStore.Ms, MetaState.Start), false), ((MetaStore.Ms, MetaState.End), false)]) ]

/-- Row lookup at the head key. -/
theorem rowGet_cons_self (k : Key) (v : Bool) (r : Row) : rowGet ((k, v) :: r) k = v := by
  simp [rowGet]

/-- Row lookup skipping a different head key. -/
theorem rowGet_cons_ne {k b : Key} (v : Bool) (r : Row) (h : k ≠ b) :
    rowGet ((k, v) :: r) b = rowGet r b := by
  simp [rowGet, h]

/-- Table lookup at the head key. -/
theorem findRow_cons_self (k : Key) (r : Row) (m : PMap) : findRow ((k, r) :: m) k = some r := by
  simp [findRow]

/-- Table lookup skipping a different head key. -/
theorem findRow_cons_ne {k a : Key} (r : Row) (m : PMap) (h : k ≠ a) :
    findRow ((k, r) :: m) a = findRow m a := by
  simp [findRow, h]

/-- Unfolding of a row write at a cons. -/
theorem rowSet_cons (k : Key) (v : Bool) (r : Row) (b : Key) (w : Bool) :
    rowSet ((k, v) :: r) b w = (if k = b then (k, w) else (k, v)) :: rowSet r b w := by
  by_cases h : k = b <;> simp [rowSet, h]

/-- Unfolding of a table write at a cons. -/
theorem pmSet_cons (k : Key) (r : Row) (m : PMap) (a b : Key) (v : Bool) :
    pmSet ((k, r) :: m) a b v =
      (if k = a then (k, rowSet r b v) else (k, r)) :: pmSet m a b v := by
  by_cases h : k = a <;> simp [pmSet, h]

/-- A True lookup means the column key is present in the row. -/
theorem rowGet_true_mem {r : Row} {b : Key} (h : rowGet r b = true) : b ∈ r.map Prod.fst := by
  induction r with
  | nil => simp [rowGet] at h
  | cons hd tl ih =>
    obtain ⟨k, v⟩ := hd
    by_cases hk : k = b
    · subst hk; simp
    · rw [rowGet_cons_ne v tl hk] at h
      simpa using Or.inr (ih h)

/-- A found row is stored in the table under its key. -/
theorem findRow_mem {m : PMap} {a : Key} {r : Row} (h : findRow m a = some r) : (a, r) ∈ m := by
  induction m with
  | nil => simp [findRow] at h
  | cons hd tl ih =>
    obtain ⟨k, rr⟩ := hd
    by_cases hk : k = a
    · subst hk
      rw [findRow_cons_self] at h
      obtain rfl : rr = r := by simpa using h
      simp
    · rw [findRow_cons_ne rr tl hk] at h
      simpa using Or.inr (ih h)

/-- A successful row lookup means the key occurs in the key list. -/
theorem findRow_key_mem {m : PMap} {a : Key} {r : Row} (h : findRow m a = some r) :
    a ∈ m.map Prod.fst := by
  have h2 := findRow_mem h
  exact List.mem_map_of_mem Prod.fst h2

/-- A key in the key list has a row. -/
theorem findRow_of_key_mem {m : PMap} {a : Key} (h : a ∈ m.map Prod.fst) :
    ∃ r, findRow m a = some r := by
  induction m with
  | nil => simp at h
  | cons hd tl ih =>
    obtain ⟨k, rr⟩ := hd
    by_cases hk : k = a
    · subst hk
      exact ⟨rr, findRow_cons_self k rr tl⟩
    · simp only [List.map_cons, List.mem_cons] at h
      rcases h with h | h
      · exact absurd h.symm hk
      · obtain ⟨r, hr⟩ := ih h
        exact ⟨r, by rw [findRow_cons_ne rr tl hk]; exact hr⟩

/-- Setting a present column and reading it back gives the written value. -/
theorem rowGet_rowSet_self {r : Row} {b : Key} {v : Bool} (h : b ∈ r.map Prod.fst) :
    rowGet (rowSet r b v) b = v := by
  induction r with
  | nil => simp at h
  | cons hd tl ih =>
    obtain ⟨k, w⟩ := hd
    rw [rowSet_cons]
    by_cases hk : k = b
    · subst hk
      rw [if_pos rfl, rowGet_cons_self]
    · rw [if_neg hk, rowGet_cons_ne w (rowSet tl b v) hk]
      simp only [List.map_cons, List.mem_cons] at h
      rcases h with h | h
      · exact absurd h.symm hk
      · exact ih h

/-- A True cell after a row write is the written cell or was already True. -/
theorem rowGet_rowSet_cases {r : Row} {b x : Key} {v : Bool}
    (h : rowGet (rowSet r b v) x = true) : (x = b ∧ v = true) ∨ rowGet r x = true := by
  induction r with
  | nil => simp [rowSet, rowGet] at h
  | cons hd tl ih =>
    obtain ⟨k, w⟩ := hd
    rw [rowSet_cons] at h
    by_cases hb : k = b
    · rw [if_pos hb] at h
      by_cases hx : k = x
      · subst hx
        rw [rowGet_cons_self] at h
        exact Or.inl ⟨hb.symm ▸ rfl, h⟩
      · rw [rowGet_cons_ne v (rowSet tl b v) hx] at h
        rcases ih h with h2 | h2
        · exact Or.inl h2
        · exact Or.inr (by rw [rowGet_cons_ne w tl hx]; exact h2)
    · rw [if_neg hb] at h
      by_cases hx : k = x
      · subst hx
        rw [rowGet_cons_self] at h
        exact Or.inr (by rw [rowGet_cons_self]; exact h)
      · rw [rowGet_cons_ne w (rowSet tl b v) hx] at h
        rcases ih h with h2 | h2
        · exact Or.inl h2
        · exact Or.inr (by rw [rowGet_cons_ne w tl hx]; exact h2)

/-- Writing True never clears a True cell of a row. -/
theorem rowGet_rowSet_mono {r : Row} {b x : Key} (h : rowGet r x = true) :
    rowGet (rowSet r b true) x = true := by
  induction r with
  | nil => simp [rowGet] at h
  | cons hd tl ih =>
    obtain ⟨k, w⟩ := hd
    rw [rowSet_cons]
    by_cases hb : k = b
    · rw [if_pos hb]
      by_cases hx : k = x
      · subst hx
        rw [rowGet_cons_self]
      · rw [rowGet_cons_ne true (rowSet tl b true) hx]
        rw [rowGet_cons_ne w tl hx] at h
        exact ih h
    · rw [if_neg hb]
      by_cases hx : k = x
      · subst hx
        rw [rowGet_cons_self]
        rw [rowGet_cons_self] at h
        exact h
      · rw [rowGet_cons_ne w (rowSet tl b true) hx]
        rw [rowGet_cons_ne w tl hx] at h
        exact ih h

/-- Row lookup after a table write: the looked-up row is the original row,
rewritten when the written row key matches. -/
theorem findRow_pmSet (m : PMap) (a b x : Key) (v : Bool) :
    findRow (pmSet m a b v) x = (findRow m x).map (fun r => if x = a then rowSet r b v else r) := by
  induction m with
  | nil => simp [pmSet, findRow]
  | cons hd tl ih =>
    obtain ⟨k, rr⟩ := hd
    rw [pmSet_cons]
    by_cases ha : k = a
    · rw [if_pos ha]
      by_cases hx : k = x
      · subst hx
        rw [findRow_cons_self, findRow_cons_self]
        have hxa : k = a := ha
        simp [hxa]
      · rw [findRow_cons_ne (rowSet rr b v) (pmSet tl a b v) hx,
          findRow_cons_ne rr tl hx]
        exact ih
    · rw [if_neg ha]
      by_cases hx : k = x
      · subst hx
        rw [findRow_cons_self, findRow_cons_self]
        have hxa : ¬ k = a := ha
        simp [hxa]
      · rw [findRow_cons_ne rr (pmSet tl a b v) hx, findRow_cons_ne rr tl hx]
        exact ih

/-- Writing True never clears a True cell of the table. -/
theorem pmGet_pmSet_mono {m : PMap} {a b x y : Key} (h : pmGet m x y = true) :
    pmGet (pmSet m a b true) x y = true := by
  unfold pmGet at h ⊢
  rw [findRow_pmSet]
  cases hf : findRow m x with
  | none => rw [hf] at h; simp at h
  | some r =>
    rw [hf] at h
    by_cases hxa : x = a
    · simp only [Option.map_some, if_pos hxa]
      exact rowGet_rowSet_mono h
    · simp only [Option.map_some, if_neg hxa]
      exact h

/-- A True cell after a table write is the written cell or was already True. -/
theorem pmGet_pmSet_cases {m : PMap} {a b x y : Key} {v : Bool}
    (h : pmGet (pmSet m a b v) x y = true) :
    (x = a ∧ y = b ∧ v = true) ∨ pmGet m x y = true := by
  unfold pmGet at h ⊢
  rw [findRow_pmSet] at h
  cases hf : findRow m x with
  | none => rw [hf] at h; simp at h
  | some r =>
    rw [hf] at h
    by_cases hxa : x = a
    · simp only [Option.map_some, if_pos hxa] at h
      rcases rowGet_rowSet_cases h with h2 | h2
      · exact Or.inl ⟨hxa, h2.1, h2.2⟩
      · exact Or.inr h2
    · simp only [Option.map_some, if_neg hxa] at h
      exact Or.inr h

/-- Writing True to a present cell makes it read True. -/
theorem pmGet_pmSet_self {m : PMap} {a b : Key} (h : HasCell m a b) :
    pmGet (pmSet m a b true) a b = true := by
  obtain ⟨r, hf, hb⟩ := h
  unfold pmGet
  rw [findRow_pmSet, hf]
  simp only [Option.map_some, if_pos rfl]
  exact rowGet_rowSet_self hb

/-- RowLe is reflexive. -/
theorem rowLe_refl (r : Row) : RowLe r r := by
  induction r with
  | nil => exact List.Forall₂.nil
  | cons hd tl ih => exact List.Forall₂.cons ⟨rfl, fun h => h⟩ ih

/-- MapLe is reflexive. -/
theorem mapLe_refl (m : PMap) : MapLe m m := by
  induction m with
  | nil => exact List.Forall₂.nil
  | cons hd tl ih => exact List.Forall₂.cons ⟨rfl, rowLe_refl hd.2⟩ ih

/-- RowLe is transitive. -/
theorem rowLe_trans {r1 r2 r3 : Row} (h1 : RowLe r1 r2) (h2 : RowLe r2 r3) : RowLe r1 r3 := by
  induction h1 generalizing r3 with
  | nil => cases h2; exact List.Forall₂.nil
  | cons hc htl ih =>
    cases h2 with
    | cons hc2 htl2 =>
      exact List.Forall₂.cons ⟨hc.1.trans hc2.1, fun h => hc2.2 (hc.2 h)⟩ (ih htl2)

/-- MapLe is transitive. -/
theorem mapLe_trans {m1 m2 m3 : PMap} (h1 : MapLe m1 m2) (h2 : MapLe m2 m3) : MapLe m1 m3 := by
  induction h1 generalizing m3 with
  | nil => cases h2; exact List.Forall₂.nil
  | cons hc htl ih =>
    cases h2 with
    | cons hc2 htl2 =>
      exact List.Forall₂.cons ⟨hc.1.trans hc2.1, rowLe_trans hc.2 hc2.2⟩ (ih htl2)

/-- A row write of True is an increase in RowLe. -/
theorem rowLe_rowSet (r : Row) (b : Key) : RowLe r (rowSet r b true) := by
  induction r with
  | nil => exact List.Forall₂.nil
  | cons hd tl ih =>
    obtain ⟨k, v⟩ := hd
    rw [rowSet_cons]
    by_cases hk : k = b
    · rw [if_pos hk]
      exact List.Forall₂.cons ⟨rfl, fun _ => rfl⟩ ih
    · rw [if_neg hk]
      exact List.Forall₂.cons ⟨rfl, fun h => h⟩ ih

/-- A table write of True is an increase in MapLe. -/
theorem mapLe_pmSet (m : PMap) (a b : Key) : MapLe m (pmSet m a b true) := by
  induction m with
  | nil => exact List.Forall₂.nil
  | cons hd tl ih =>
    obtain ⟨k, r⟩ := hd
    rw [pmSet_cons]
    by_cases hk : k = a
    · rw [if_pos hk]
      exact List.Forall₂.cons ⟨rfl, rowLe_rowSet r b⟩ ih
    · rw [if_neg hk]
      exact List.Forall₂.cons ⟨rfl, rowLe_refl r⟩ ih

/-- RowLe preserves True lookups. -/
theorem rowGet_rowLe {r r2 : Row} {x : Key} (h : RowLe r r2) (hx : rowGet r x = true) :
    rowGet r2 x = true := by
  induction h with
  | nil => simp [rowGet] at hx
  | cons hc htl ih =>
    rename_i c1 c2 t1 t2
    obtain ⟨k1, v1⟩ := c1
    obtain ⟨k2, v2⟩ := c2
    obtain ⟨hkey, himp⟩ := hc
    simp only at hkey
    subst hkey
    by_cases hk : k1 = x
    · subst hk
      rw [rowGet_cons_self] at hx ⊢
      exact himp hx
    · rw [rowGet_cons_ne v1 t1 hk] at hx
      rw [rowGet_cons_ne v2 t2 hk]
      exact ih hx

/-- MapLe aligns the row found under any key, preserving RowLe. -/
theorem findRow_mapLe {m m2 : PMap} {x : Key} {r : Row} (h : MapLe m m2)
    (hf : findRow m x = some r) : ∃ r2, findRow m2 x = some r2 ∧ RowLe r r2 := by
  induction h with
  | nil => simp [findRow] at hf
  | cons hc htl ih =>
    rename_i R1 R2 t1 t2
    obtain ⟨k1, r1⟩ := R1
    obtain ⟨k2, r2⟩ := R2
    obtain ⟨hkey, hrow⟩ := hc
    simp only at hkey
    subst hkey
    by_cases hk : k1 = x
    · subst hk
      rw [findRow_cons_self] at hf
      obtain rfl : r1 = r := by simpa using hf
      exact ⟨r2, findRow_cons_self k1 r2 t2, hrow⟩
    · rw [findRow_cons_ne r1 t1 hk] at hf
      obtain ⟨r3, hr3, hle⟩ := ih hf
      exact ⟨r3, by rw [findRow_cons_ne r2 t2 hk]; exact hr3, hle⟩

/-- MapLe preserves True cells. -/
theorem pmGet_mapLe {m m2 : PMap} {x y : Key} (h : MapLe m m2) (hx : pmGet m x y = true) :
    pmGet m2 x y = true := by
  unfold pmGet at hx ⊢
  cases hf : findRow m x with
  | none => rw [hf] at hx; simp at hx
  | some r =>
    rw [hf] at hx
    obtain ⟨r2, hr2, hle⟩ := findRow_mapLe h hf
    rw [hr2]
    exact rowGet_rowLe hle hx

/-- MapLe preserves the key list. -/
theorem mapLe_keys {m m2 : PMap} (h : MapLe m m2) : m.map Prod.fst = m2.map Prod.fst := by
  induction h with
  | nil => rfl
  | cons hc htl ih => simp [hc.1, ih]

/-- RowLe preserves the column key list. -/
theorem rowLe_keys {r r2 : Row} (h : RowLe r r2) : r.map Prod.fst = r2.map Prod.fst := by
  induction h with
  | nil => rfl
  | cons hc htl ih => simp [hc.1, ih]

/-- MapLe preserves cell presence. -/
theorem hasCell_mapLe {m m2 : PMap} {a b : Key} (h : MapLe m m2) (hc : HasCell m a b) :
    HasCell m2 a b := by
  obtain ⟨r, hf, hb⟩ := hc
  obtain ⟨r2, hr2, hle⟩ := findRow_mapLe h hf
  exact ⟨r2, hr2, by rw [← rowLe_keys hle]; exact hb⟩

/-- Rows of the larger table arise from aligned rows of the smaller one. -/
theorem mapLe_mem_right {m m2 : PMap} {p2 : Key × Row} (h : MapLe m m2) (hp : p2 ∈ m2) :
    ∃ p ∈ m, p.1 = p2.1 ∧ RowLe p.2 p2.2 := by
  revert hp
  induction h with
  | nil => intro hp; simp at hp
  | cons hc htl ih =>
    intro hp
    rename_i R1 R2 t1 t2
    rcases List.mem_cons.mp hp with rfl | hp
    · exact ⟨R1, List.mem_cons_self R1 t1, hc.1, hc.2⟩
    · obtain ⟨p, hpm, hkey, hrow⟩ := ih hp
      exact ⟨p, List.mem_cons_of_mem R1 hpm, hkey, hrow⟩

/-- MapLe preserves well-formedness. -/
theorem wellFormed_mapLe {m m2 : PMap} (h : MapLe m m2) (hw : WellFormed m) : WellFormed m2 := by
  intro p2 hp2
  obtain ⟨p, hpm, hkey, hrow⟩ := mapLe_mem_right h hp2
  rw [← rowLe_keys hrow, ← mapLe_keys h]
  exact hw p hpm

/-- Decomposition of the True count at a cons. -/
theorem get_table_true_count_cons (p : Key × Row) (tl : PMap) :
    get_table_true_count (p :: tl) =
      ((p.2.map Prod.snd).filter id).length + get_table_true_count tl := by
  simp [get_table_true_count, List.flatMap_cons, List.filter_append]

/-- Decomposition of the cell count at a cons. -/
theorem totalCells_cons (p : Key × Row) (tl : PMap) :
    totalCells (p :: tl) = p.2.length + totalCells tl := by
  simp [totalCells, List.flatMap_cons]

/-- RowLe induces the value-wise implication order on the stored Booleans. -/
theorem rowLe_snd {r r2 : Row} (h : RowLe r r2) :
    List.Forall₂ (fun v v2 : Bool => v = true → v2 = true) (r.map Prod.snd) (r2.map Prod.snd) := by
  induction h with
  | nil => exact List.Forall₂.nil
  | cons hc htl ih => exact List.Forall₂.cons hc.2 ih

/-- The True count of Boolean lists is monotone under value-wise implication. -/
theorem bools_count_le {bs bs2 : List Bool}
    (h : List.Forall₂ (fun v v2 : Bool => v = true → v2 = true) bs bs2) :
    (bs.filter id).length ≤ (bs2.filter id).length := by
  induction h with
  | nil => exact Nat.le_refl 0
  | cons hc htl ih =>
    rename_i b b2 t t2
    cases b with
    | true =>
      have hb2 : b2 = true := hc rfl
      subst hb2
      simpa using Nat.succ_le_succ ih
    | false =>
      cases b2 with
      | true => simpa using Nat.le_succ_of_le ih
      | false => simpa using ih

/-- Equal True counts under value-wise implication force equal Boolean lists. -/
theorem bools_count_eq_imp_eq {bs bs2 : List Bool}
    (h : List.Forall₂ (fun v v2 : Bool => v = true → v2 = true) bs bs2)
    (hc : (bs2.filter id).length ≤ (bs.filter id).length) : bs = bs2 := by
  induction h with
  | nil => rfl
  | cons hcell htl ih =>
    rename_i b b2 t t2
    cases b with
    | true =>
      have hb2 : b2 = true := hcell rfl
      subst hb2
      simp only [List.filter, id] at hc
      have := Nat.le_of_succ_le_succ (by simpa using hc)
      rw [ih this]
    | false =>
      cases b2 with
      | true =>
        exfalso
        have hle := bools_count_le htl
        simp only [List.filter, id, List.length_cons] at hc
        omega
      | false =>
        simp only [List.filter, id] at hc
        rw [ih (by simpa using hc)]

/-- Lists of pairs with equal key lists and equal value lists are equal. -/
theorem pairs_ext {l l2 : List (Key × Bool)} (hf : l.map Prod.fst = l2.map Prod.fst)
    (hs : l.map Prod.snd = l2.map Prod.snd) : l = l2 := by
  induction l generalizing l2 with
  | nil => cases l2 with
    | nil => rfl
    | cons hd tl => simp at hf
  | cons hd tl ih =>
    cases l2 with
    | nil => simp at hf
    | cons hd2 tl2 =>
      simp only [List.map_cons, List.cons.injEq] at hf hs
      have : hd = hd2 := Prod.ext hf.1 hs.1
      rw [this, ih hf.2 hs.2]

/-- RowLe with no increase in the True count is equality. -/
theorem rowLe_count_eq {r r2 : Row} (h : RowLe r r2)
    (hc : ((r2.map Prod.snd).filter id).length ≤ ((r.map Prod.snd).filter id).length) :
    r = r2 :=
  pairs_ext (rowLe_keys h) (bools_count_eq_imp_eq (rowLe_snd h) hc)

/-- MapLe is monotone in the True count. -/
theorem mapLe_count_le {m m2 : PMap} (h : MapLe m m2) :
    get_table_true_count m ≤ get_table_true_count m2 := by
  induction h with
  | nil => exact Nat.le_refl 0
  | cons hc htl ih =>
    rename_i R1 R2 t1 t2
    rw [get_table_true_count_cons, get_table_true_count_cons]
    exact Nat.add_le_add (bools_count_le (rowLe_snd hc.2)) ih

/-- MapLe with no increase in the True count is equality. -/
theorem mapLe_count_eq_imp_eq {m m2 : PMap} (h : MapLe m m2)
    (hc : get_table_true_count m2 ≤ get_table_true_count m) : m = m2 := by
  induction h with
  | nil => rfl
  | cons hcell htl ih =>
    rename_i R1 R2 t1 t2
    rw [get_table_true_count_cons, get_table_true_count_cons] at hc
    have h1 := bools_count_le (rowLe_snd hcell.2)
    have h2 := mapLe_count_le htl
    have hrow : R1.2 = R2.2 := rowLe_count_eq hcell.2 (by omega)
    have htail : t1 = t2 := ih (by omega)
    rw [Prod.ext hcell.1 hrow, htail]

/-- MapLe preserves the total cell count. -/
theorem totalCells_mapLe {m m2 : PMap} (h : MapLe m m2) : totalCells m = totalCells m2 := by
  induction h with
  | nil => rfl
  | cons hc htl ih =>
    rw [totalCells_cons, totalCells_cons, hc.2.length_eq, ih]

/-- The True count never exceeds the cell count. -/
theorem count_le_totalCells (m : PMap) : get_table_true_count m ≤ totalCells m := by
  induction m with
  | nil => exact Nat.le_refl 0
  | cons hd tl ih =>
    rw [get_table_true_count_cons, totalCells_cons]
    have h1 : ((hd.2.map Prod.snd).filter id).length ≤ hd.2.length := by
      calc ((hd.2.map Prod.snd).filter id).length ≤ (hd.2.map Prod.snd).length :=
            List.length_filter_le _ _
        _ = hd.2.length := List.length_map _ _
    exact Nat.add_le_add h1 ih

/-- Unfolding of one iteration of the closure loop. -/
theorem computeAux_succ (fuel c : Nat) (m : PMap) :
    computeAux (fuel+1) c m =
      if get_table_true_count (closurePass m) = c then closurePass m
      else computeAux fuel (get_table_true_count (closurePass m)) (closurePass m) := rfl

/-- A fold of MapLe-increasing steps is MapLe-increasing. -/
theorem foldl_mapLe {α : Type} (f : PMap → α → PMap) (hf : ∀ m x, MapLe m (f m x)) :
    ∀ (L : List α) (m : PMap), MapLe m (L.foldl f m) := by
  intro L
  induction L with
  | nil => intro m; exact mapLe_refl m
  | cons x tl ih =>
    intro m
    exact mapLe_trans (hf m x) (ih (f m x))

/-- The innermost closure loop only grows the table. -/
theorem dstLoop_mapLe (rk ck : Key) (dks : List Key) (m : PMap) :
    MapLe m (dstLoop rk ck dks m) := by
  refine foldl_mapLe _ ?_ dks m
  intro m2 dk
  by_cases hg : pmGet m2 ck dk = true
  · unfold dstLoop at *
    rw [if_pos hg]
    exact mapLe_pmSet m2 rk dk
  · rw [if_neg hg]
    exact mapLe_refl m2

/-- The column step only grows the table. -/
theorem colStep_mapLe (m0 : PMap) (rk : Key) (m : PMap) (cl : Key × Bool) :
    MapLe m (colStep m0 rk m cl) := by
  unfold colStep
  by_cases hg : pmGet m rk cl.1 = true
  · rw [if_pos hg]
    exact dstLoop_mapLe rk cl.1 (rowKeys m0 cl.1) m
  · rw [if_neg hg]
    exact mapLe_refl m

/-- The row step only grows the table. -/
theorem rowStep_mapLe (m0 : PMap) (m : PMap) (rw : Key × Row) :
    MapLe m (rowStep m0 m rw) :=
  foldl_mapLe (colStep m0 rw.1) (colStep_mapLe m0 rw.1) rw.2 m

/-- One closure pass only grows the table. -/
theorem closurePass_mapLe (m : PMap) : MapLe m (closurePass m) :=
  foldl_mapLe (rowStep m) (rowStep_mapLe m) m m

/-- The closure loop only grows the table. -/
theorem computeAux_mapLe : ∀ (fuel c : Nat) (m : PMap), MapLe m (computeAux fuel c m) := by
  intro fuel
  induction fuel with
  | zero => intro c m; exact mapLe_refl m
  | succ fuel ih =>
    intro c m
    rw [computeAux_succ]
    by_cases hc : get_table_true_count (closurePass m) = c
    · rw [if_pos hc]
      exact closurePass_mapLe m
    · rw [if_neg hc]
      exact mapLe_trans (closurePass_mapLe m) (ih _ (closurePass m))

/-- The computed closure contains the input table. -/
theorem compute_mapLe (m : PMap) : MapLe m (compute_partially_ordered_map m) :=
  computeAux_mapLe _ _ m

/-- A True cell of the input stays True in the computed closure. -/
theorem pmGet_compute_mono {m : PMap} {a b : Key} (h : pmGet m a b = true) :
    pmGet (compute_partially_ordered_map m) a b = true :=
  pmGet_mapLe (compute_mapLe m) h

/-- Writing a cell allowed by R preserves the bound R. -/
theorem subRel_pmSet {m : PMap} {R : Key → Key → Bool} {a b : Key}
    (hs : SubRel m R) (hr : R a b = true) : SubRel (pmSet m a b true) R := by
  intro x y hxy
  rcases pmGet_pmSet_cases hxy with ⟨rfl, rfl, _⟩ | h2
  · exact hr
  · exact hs x y h2

/-- A fold of R-preserving steps preserves the bound R. -/
theorem subRel_foldl {α : Type} {R : Key → Key → Bool} (f : PMap → α → PMap)
    (hstep : ∀ m x, SubRel m R → SubRel (f m x) R) :
    ∀ (L : List α) (m : PMap), SubRel m R → SubRel (L.foldl f m) R := by
  intro L
  induction L with
  | nil => intro m hs; exact hs
  | cons x tl ih =>
    intro m hs
    exact ih (f m x) (hstep m x hs)

/-- The innermost closure loop preserves a transitive bound R. -/
theorem subRel_dstLoop {R : Key → Key → Bool}
    (htrans : ∀ a b c, R a b = true → R b c = true → R a c = true)
    {rk ck : Key} (hrc : R rk ck = true) :
    ∀ (dks : List Key) (m : PMap), SubRel m R → SubRel (dstLoop rk ck dks m) R := by
  refine subRel_foldl _ ?_
  intro m dk hs
  by_cases hg : pmGet m ck dk = true
  · rw [if_pos hg]
    exact subRel_pmSet hs (htrans rk ck dk hrc (hs ck dk hg))
  · rw [if_neg hg]
    exact hs

/-- The column step preserves a transitive bound R. -/
theorem subRel_colStep {R : Key → Key → Bool}
    (htrans : ∀ a b c, R a b = true → R b c = true → R a c = true)
    (m0 : PMap) (rk : Key) (m : PMap) (cl : Key × Bool) (hs : SubRel m R) :
    SubRel (colStep m0 rk m cl) R := by
  unfold colStep
  by_cases hg : pmGet m rk cl.1 = true
  · rw [if_pos hg]
    exact subRel_dstLoop htrans (hs rk cl.1 hg) (rowKeys m0 cl.1) m hs
  · rw [if_neg hg]
    exact hs

/-- One closure pass preserves a transitive bound R. -/
theorem subRel_closurePass {R : Key → Key → Bool}
    (htrans : ∀ a b c, R a b = true → R b c = true → R a c = true)
    {m : PMap} (hs : SubRel m R) : SubRel (closurePass m) R := by
  refine subRel_foldl (rowStep m) ?_ m m hs
  intro m2 rw hs2
  exact subRel_foldl (colStep m rw.1) (subRel_colStep htrans m rw.1) rw.2 m2 hs2

/-- The closure loop preserves a transitive bound R. -/
theorem subRel_computeAux {R : Key → Key → Bool}
    (htrans : ∀ a b c, R a b = true → R b c = true → R a c = true) :
    ∀ (fuel c : Nat) (m : PMap), SubRel m R → SubRel (computeAux fuel c m) R := by
  intro fuel
  induction fuel with
  | zero => intro c m hs; exact hs
  | succ fuel ih =>
    intro c m hs
    rw [computeAux_succ]
    by_cases hc : get_table_true_count (closurePass m) = c
    · rw [if_pos hc]
      exact subRel_closurePass htrans hs
    · rw [if_neg hc]
      exact ih _ (closurePass m) (subRel_closurePass htrans hs)

/-- The computed closure stays below any transitive bound of the input. -/
theorem subRel_compute {R : Key → Key → Bool}
    (htrans : ∀ a b c, R a b = true → R b c = true → R a c = true)
    {m : PMap} (hs : SubRel m R) : SubRel (compute_partially_ordered_map m) R :=
  subRel_computeAux htrans _ _ m hs

/-- A pass leaving the True count unchanged changed nothing. -/
theorem closurePass_count_fix {m : PMap}
    (h : get_table_true_count (closurePass m) = get_table_true_count m) :
    closurePass m = m :=
  (mapLe_count_eq_imp_eq (closurePass_mapLe m) (Nat.le_of_eq h)).symm

/-- With enough fuel, the closure loop returns a fixed point of the pass. -/
theorem computeAux_fixed (fuel : Nat) :
    ∀ (m : PMap), totalCells m + 1 ≤ fuel + get_table_true_count m →
      closurePass (computeAux fuel (get_table_true_count m) m) =
        computeAux fuel (get_table_true_count m) m := by
  induction fuel with
  | zero =>
    intro m h
    exfalso
    have h2 := count_le_totalCells m
    omega
  | succ fuel ih =>
    intro m h
    rw [computeAux_succ]
    by_cases hc : get_table_true_count (closurePass m) = get_table_true_count m
    · rw [if_pos hc]
      have hfix := closurePass_count_fix hc
      rw [hfix]
      exact hfix
    · rw [if_neg hc]
      have h1 := mapLe_count_le (closurePass_mapLe m)
      have h2 := totalCells_mapLe (closurePass_mapLe m)
      exact ih (closurePass m) (by omega)

/-- With enough fuel, the result of the closure loop does not depend on the
fuel: the loop terminates of its own accord. -/
theorem computeAux_fuel_irrel (f1 : Nat) :
    ∀ (f2 : Nat) (m : PMap), totalCells m + 1 ≤ f1 + get_table_true_count m →
      totalCells m + 1 ≤ f2 + get_table_true_count m →
      computeAux f1 (get_table_true_count m) m = computeAux f2 (get_table_true_count m) m := by
  induction f1 with
  | zero =>
    intro f2 m h1 h2
    exfalso
    have h3 := count_le_totalCells m
    omega
  | succ f1 ih =>
    intro f2 m h1 h2
    cases f2 with
    | zero =>
      exfalso
      have h3 := count_le_totalCells m
      omega
    | succ f2 =>
      rw [computeAux_succ, computeAux_succ]
      by_cases hc : get_table_true_count (closurePass m) = get_table_true_count m
      · rw [if_pos hc, if_pos hc]
      · rw [if_neg hc, if_neg hc]
        have hcle := mapLe_count_le (closurePass_mapLe m)
        have hcells := totalCells_mapLe (closurePass_mapLe m)
        exact ih f2 (closurePass m) (by omega) (by omega)

/-- One step of the innermost closure loop only grows the table. -/
theorem dstStep_mapLe (a b : Key) (m : PMap) (dk : Key) :
    MapLe m (if pmGet m b dk then pmSet m a dk true else m) := by
  by_cases hg : pmGet m b dk = true
  · rw [if_pos hg]; exact mapLe_pmSet m a dk
  · rw [if_neg hg]; exact mapLe_refl m

/-- The innermost closure loop sets the composite cell when it reaches the
destination key. -/
theorem dstLoop_covers {a b c : Key} :
    ∀ (D : List Key) (m : PMap), c ∈ D → pmGet m b c = true → HasCell m a c →
      pmGet (dstLoop a b D m) a c = true := by
  intro D
  induction D with
  | nil => intro m hc; simp at hc
  | cons d tl ih =>
    intro m hc hbc hcell
    unfold dstLoop
    rw [List.foldl_cons]
    by_cases hd : d = c
    · subst hd
      rw [if_pos hbc]
      have h1 : pmGet (pmSet m a d true) a d = true := pmGet_pmSet_self hcell
      exact pmGet_mapLe (dstLoop_mapLe a b tl (pmSet m a d true)) h1
    · have hstep := dstStep_mapLe a b m d
      have hc2 : c ∈ tl := by
        rcases List.mem_cons.mp hc with h | h
        · exact absurd h.symm hd
        · exact h
      exact ih _ hc2 (pmGet_mapLe hstep hbc) (hasCell_mapLe hstep hcell)

/-- The column loop sets the composite cell when it reaches the middle key. -/
theorem colLoop_covers {a b c : Key} (m0 : PMap) :
    ∀ (L : List (Key × Bool)) (m : PMap), (∃ w, (b, w) ∈ L) → pmGet m a b = true →
      pmGet m b c = true → c ∈ rowKeys m0 b → HasCell m a c →
      pmGet (L.foldl (colStep m0 a) m) a c = true := by
  intro L
  induction L with
  | nil => intro m hw; simp at hw
  | cons cl tl ih =>
    intro m hw hab hbc hrk hcell
    rw [List.foldl_cons]
    by_cases hclb : cl.1 = b
    · have hstep : colStep m0 a m cl = dstLoop a b (rowKeys m0 b) m := by
        unfold colStep
        rw [hclb, if_pos hab]
      rw [hstep]
      have h1 := dstLoop_covers (rowKeys m0 b) m hrk hbc hcell
      have h2 := foldl_mapLe (colStep m0 a) (colStep_mapLe m0 a) tl (dstLoop a b (rowKeys m0 b) m)
      exact pmGet_mapLe h2 h1
    · have hstep := colStep_mapLe m0 a m cl
      have hw2 : ∃ w, (b, w) ∈ tl := by
        obtain ⟨w, hwm⟩ := hw
        rcases List.mem_cons.mp hwm with h | h
        · exact absurd (congrArg Prod.fst h.symm) hclb
        · exact ⟨w, h⟩
      exact ih _ hw2 (pmGet_mapLe hstep hab) (pmGet_mapLe hstep hbc) hrk
        (hasCell_mapLe hstep hcell)

/-- The row loop sets the composite cell when it reaches the source row. -/
theorem rowLoop_covers {a b c : Key} {ra : Row} (m0 : PMap) :
    ∀ (L : List (Key × Row)) (m : PMap), (a, ra) ∈ L → (∃ w, (b, w) ∈ ra) →
      pmGet m a b = true → pmGet m b c = true → c ∈ rowKeys m0 b → HasCell m a c →
      pmGet (L.foldl (rowStep m0) m) a c = true := by
  intro L
  induction L with
  | nil => intro m hmem; simp at hmem
  | cons rwp tl ih =>
    intro m hmem hw hab hbc hrk hcell
    rw [List.foldl_cons]
    rcases List.mem_cons.mp hmem with heq | hmem2
    · have hstep : rowStep m0 m rwp = ra.foldl (colStep m0 a) m := by
        rw [← heq]
        rfl
      rw [hstep]
      have h1 := colLoop_covers m0 ra m hw hab hbc hrk hcell
      have h2 := foldl_mapLe (rowStep m0) (rowStep_mapLe m0) tl (ra.foldl (colStep m0 a) m)
      exact pmGet_mapLe h2 h1
    · have hstep := rowStep_mapLe m0 m rwp
      exact ih _ hmem2 hw (pmGet_mapLe hstep hab) (pmGet_mapLe hstep hbc) hrk
        (hasCell_mapLe hstep hcell)

/-- One closure pass over a well-formed table sets the composition of any two
True cells. -/
theorem pmGet_closurePass_comp {m : PMap} (hw : WellFormed m) {a b c : Key}
    (hab : pmGet m a b = true) (hbc : pmGet m b c = true) :
    pmGet (closurePass m) a c = true := by
  have hfa : ∃ ra, findRow m a = some ra := by
    unfold pmGet at hab
    cases hf : findRow m a with
    | none => rw [hf] at hab; simp at hab
    | some r => exact ⟨r, rfl⟩
  obtain ⟨ra, hfa⟩ := hfa
  have hfb : ∃ rb, findRow m b = some rb ∧ rowGet rb c = true := by
    unfold pmGet at hbc
    cases hf : findRow m b with
    | none => rw [hf] at hbc; simp at hbc
    | some r => rw [hf] at hbc; exact ⟨r, rfl, hbc⟩
  obtain ⟨rb, hfb, hrbc⟩ := hfb
  have hma : (a, ra) ∈ m := findRow_mem hfa
  have hmb : (b, rb) ∈ m := findRow_mem hfb
  have hka : ra.map Prod.fst = m.map Prod.fst := hw (a, ra) hma
  have hkb : rb.map Prod.fst = m.map Prod.fst := hw (b, rb) hmb
  have hbkeys : b ∈ m.map Prod.fst := findRow_key_mem hfb
  have hbra : b ∈ ra.map Prod.fst := by rw [hka]; exact hbkeys
  have hcrb : c ∈ rb.map Prod.fst := rowGet_true_mem hrbc
  have hckeys : c ∈ m.map Prod.fst := by rw [← hkb]; exact hcrb
  have hcra : c ∈ ra.map Prod.fst := by rw [hka]; exact hckeys
  have hcell : HasCell m a c := ⟨ra, hfa, hcra⟩
  have hw2 : ∃ w, (b, w) ∈ ra := by
    obtain ⟨cl, hcl, hcl1⟩ := List.exists_of_mem_map hbra
    exact ⟨cl.2, by rw [show (b, cl.2) = cl from Prod.ext hcl1.symm rfl]; exact hcl⟩
  have hrk : c ∈ rowKeys m b := by
    unfold rowKeys
    rw [hfb]
    exact hcrb
  exact rowLoop_covers m m m hma hw2 hab hbc hrk hcell

/-- The computed closure of a well-formed table is transitive. -/
theorem pmGet_compute_trans {m : PMap} (hw : WellFormed m) {a b c : Key}
    (hab : pmGet (compute_partially_ordered_map m) a b = true)
    (hbc : pmGet (compute_partially_ordered_map m) b c = true) :
    pmGet (compute_partially_ordered_map m) a c = true := by
  have hfix : closurePass (compute_partially_ordered_map m) = compute_partially_ordered_map m :=
    computeAux_fixed (totalCells m + 1) m (Nat.le_add_right _ _)
  have hwr : WellFormed (compute_partially_ordered_map m) :=
    wellFormed_mapLe (compute_mapLe m) hw
  have h1 := pmGet_closurePass_comp hwr hab hbc
  rw [hfix] at h1
  exact h1

/-- A row holding only False cells reads False everywhere. -/
theorem rowGet_const_false (L : List Key) (b : Key) :
    rowGet (L.map (fun k2 => (k2, false))) b = false := by
  induction L with
  | nil => rfl
  | cons k tl ih =>
    rw [List.map_cons]
    by_cases hk : k = b
    · subst hk
      rw [rowGet_cons_self]
    · rw [rowGet_cons_ne false _ hk]
      exact ih

/-- A table whose rows read False everywhere reads False everywhere. -/
theorem pmGet_const_rows (L : List Key) (r0 : Row) (hr : ∀ b, rowGet r0 b = false)
    (a b : Key) : pmGet (L.map (fun k => (k, r0))) a b = false := by
  induction L with
  | nil => rfl
  | cons k tl ih =>
    rw [List.map_cons]
    unfold pmGet
    by_cases hk : k = a
    · subst hk
      rw [findRow_cons_self]
      exact hr b
    · rw [findRow_cons_ne r0 _ hk]
      exact ih

/-- The freshly initialized table is all False. -/
theorem pmGet_initTable (a b : Key) : pmGet initTable a b = false :=
  pmGet_const_rows allKeys _ (rowGet_const_false allKeys) a b

/-- A fold of steps that preserve the bound R for visited elements preserves R. -/
theorem subRel_foldl_mem {α : Type} {R : Key → Key → Bool} (f : PMap → α → PMap) :
    ∀ (L : List α), (∀ m x, x ∈ L → SubRel m R → SubRel (f m x) R) →
      ∀ m, SubRel m R → SubRel (L.foldl f m) R := by
  intro L
  induction L with
  | nil => intro _ m hs; exact hs
  | cons x tl ih =>
    intro hstep m hs
    rw [List.foldl_cons]
    exact ih (fun m2 y hy => hstep m2 y (List.mem_cons_of_mem x hy))
      (f m x) (hstep m x (List.mem_cons_self x tl) hs)

/-- The generated pre-closure table stays below any Boolean relation R that
holds on every seeded intra-channel pair and on the six cross-channel facts. -/
theorem subRel_basicOrderedMap {R : Key → Key → Bool}
    (hintra : ∀ c : MetaStore, ∀ s1 ∈ (gen_store_order c).dropLast,
      ∀ s2 ∈ (gen_store_order c).drop 1, R (c, s1) (c, s2) = true)
    (h1 : R (.Rs, .IptSlot) (.Ms, .MgrSet) = true)
    (h2 : R (.Ms, .MgrSet) (.Ls, .MgrSlot) = true)
    (h3 : R (.Rd, .MgrSlot) (.Md, .RedirectToPeer) = true)
    (h4 : R (.Md, .RedirectToPeer) (.Ld, .IptSlot) = true)
    (h5 : R (.Ms, .Queue) (.Md, .RedirectToSelf) = true)
    (h6 : R (.Md, .RedirectToSelf) (.Ms, .RedirectToPeer) = true) :
    SubRel basicOrderedMap R := by
  have hinit : SubRel initTable R := by
    intro a b hab
    rw [pmGet_initTable] at hab
    exact absurd hab (by simp)
  have hwio : SubRel withIntraOrder R := by
    refine subRel_foldl_mem _ MetaStore.all ?_ initTable hinit
    intro m store _ hs
    refine subRel_foldl_mem _ ((gen_store_order store).dropLast) ?_ m hs
    intro m2 s1 hs1 hs2
    refine subRel_foldl_mem _ ((gen_store_order store).drop 1) ?_ m2 hs2
    intro m3 s2 hs3 hs4
    exact subRel_pmSet hs4 (hintra store s1 hs1 s2 hs3)
  exact subRel_pmSet (subRel_pmSet (subRel_pmSet (subRel_pmSet (subRel_pmSet
    (subRel_pmSet hwio h1) h2) h3) h4) h5) h6

/-- Channel-level reachability is transitive. -/
theorem storeReaches_trans : ∀ x y z : MetaStore,
    storeReaches x y = true → storeReaches y z = true → storeReaches x z = true := by
  decide

/-- The bound closedRel is transitive. -/
theorem closedRel_trans : ∀ a b c : Key,
    closedRel a b = true → closedRel b c = true → closedRel a c = true := by
  intro a b c hab hbc
  unfold closedRel at hab hbc ⊢
  rw [Bool.and_eq_true, Bool.and_eq_true] at hab hbc
  obtain ⟨⟨hr1, hs1⟩, _⟩ := hab
  obtain ⟨⟨hr2, _⟩, hs4⟩ := hbc
  rw [Bool.and_eq_true, Bool.and_eq_true]
  exact ⟨⟨storeReaches_trans a.1 b.1 c.1 hr1 hr2, hs1⟩, hs4⟩

/-- The bound anyFreeRel is transitive. -/
theorem anyFreeRel_trans : ∀ a b c : Key,
    anyFreeRel a b = true → anyFreeRel b c = true → anyFreeRel a c = true := by
  intro a b c hab hbc
  unfold anyFreeRel at hab hbc ⊢
  rw [Bool.and_eq_true] at hab hbc
  rw [Bool.and_eq_true]
  exact ⟨hab.1, hbc.2⟩

/-- The pre-closure table stays below closedRel. -/
theorem subRel_basic_closedRel : SubRel basicOrderedMap closedRel :=
  subRel_basicOrderedMap (by decide) (by decide) (by decide) (by decide) (by decide)
    (by decide) (by decide)

/-- The pre-closure table stays below anyFreeRel. -/
theorem subRel_basic_anyFree : SubRel basicOrderedMap anyFreeRel :=
  subRel_basicOrderedMap (by decide) (by decide) (by decide) (by decide) (by decide)
    (by decide) (by decide)

set_option maxRecDepth 100000 in
/-- The closed table stays below closedRel. -/
theorem subRel_closed_closedRel : SubRel partial_order_map closedRel := by
  show SubRel (compute_partially_ordered_map basicOrderedMap) closedRel
  exact subRel_compute closedRel_trans subRel_basic_closedRel

set_option maxRecDepth 100000 in
/-- The closed table stays below anyFreeRel. -/
theorem subRel_closed_anyFree : SubRel partial_order_map anyFreeRel := by
  show SubRel (compute_partially_ordered_map basicOrderedMap) anyFreeRel
  exact subRel_compute anyFreeRel_trans subRel_basic_anyFree

set_option maxRecDepth 100000 in
/-- Every seeded intra-channel pair is True in the pre-closure table. -/
theorem basic_intra_true : ∀ (c : MetaStore) (s1 s2 : MetaState),
    s1 ∈ (gen_store_order c).dropLast → s2 ∈ (gen_store_order c).drop 1 →
    pmGet basicOrderedMap (c, s1) (c, s2) = true := by
  decide

set_option maxRecDepth 100000 in
/-- A successor step of a channel is a seeded pair of the pre-closure table. -/
theorem next_adjacent_basic : ∀ (c : MetaStore) (cur ns : MetaState),
    get_next_state gen_store_order c cur = some ns →
    pmGet basicOrderedMap (c, cur) (c, ns) = true := by
  decide

set_option maxRecDepth 100000 in
/-- The generated pre-closure table is square. -/
theorem wellFormed_basic : WellFormed basicOrderedMap := by
  show ∀ p ∈ basicOrderedMap, p.2.map Prod.fst = basicOrderedMap.map Prod.fst
  decide

/-- Every channel occurs in the iteration list of the channels. -/
theorem mem_metaStore_all (c : MetaStore) : c ∈ MetaStore.all := by
  cases c <;> decide

/-- A list with a member mapped to false is not all true. -/
theorem all_false_of_mem {α : Type} {p : α → Bool} {l : List α} {x : α}
    (hx : x ∈ l) (hp : p x = false) : l.all p = false := by
  induction l with
  | nil => simp at hx
  | cons h tl ih =>
    rcases List.mem_cons.mp hx with rfl | hx2
    · simp [List.all_cons, hp]
    · rw [List.all_cons, ih hx2]
      simp

set_option maxRecDepth 100000 in
/-- The closed table holds every single-step successor cell of a channel. -/
theorem closed_next_cell {c : MetaStore} {cur ns : MetaState}
    (h : get_next_state gen_store_order c cur = some ns) :
    pmGet partial_order_map (c, cur) (c, ns) = true := by
  show pmGet (compute_partially_ordered_map basicOrderedMap) (c, cur) (c, ns) = true
  exact pmGet_compute_mono (next_adjacent_basic c cur ns h)

set_option maxRecDepth 100000 in
/-- check_order accepts advancing Ld out of the seed snapshot: the closed
table relates the current cell (Ld, Start) to the candidate (Ld, IptSlot). -/
theorem check_order_seed_Ld :
    check_order seedStates MetaStore.Ld MetaState.IptSlot partial_order_map = true := by
  have hcell : pmGet partial_order_map (MetaStore.Ld, seedStates MetaStore.Ld)
      (MetaStore.Ld, MetaState.IptSlot) = true := closed_next_cell (by decide)
  unfold check_order
  rw [List.any_eq_true]
  exact ⟨MetaStore.Ld, mem_metaStore_all MetaStore.Ld, hcell⟩

/-- Unfolding of one level of the search recursion. -/
theorem recur_check_cons (ords : MetaStore → List MetaState) (mp : PMap) (fuel : Nat)
    (s : States) (a : MetaStore) (rest : List MetaStore) :
    recur_check ords mp (fuel+1) s (a :: rest) =
      ((a :: rest).permutations).all (fun perm =>
        match perm with
        | [] => true
        | next_store :: stores =>
          match get_next_state ords next_store (s next_store) with
          | none => true
          | some next_state =>
            if check_order s next_store next_state mp then
              validate_states (updateStates s next_store next_state) &&
                recur_check ords mp fuel (updateStates s next_store next_state) stores
            else true) := rfl

set_option maxRecDepth 100000 in
/-- C1: the exhaustive search from the seed snapshot does NOT return normally:
the branch that advances Ld first passes check_order (the closed table holds
the self-edge (Ld, Start) to (Ld, IptSlot)) and produces a snapshot rejected
by validate_states, so the run reaches the fatal print-and-exit path, modelled
here as the result false. -/
theorem c1_search_reaches_fatal_path : check = false := by
  have hco := check_order_seed_Ld
  have hval : validate_states (updateStates seedStates MetaStore.Ld MetaState.IptSlot) = false := by
    decide
  show recur_check gen_store_order partial_order_map 6 seedStates
      (MetaStore.Ms :: [MetaStore.Ls, MetaStore.Rs, MetaStore.Md, MetaStore.Ld, MetaStore.Rd]) =
      false
  rw [recur_check_cons]
  refine all_false_of_mem
    (List.mem_permutations.mpr
      (by decide : List.Perm
        [MetaStore.Ld, MetaStore.Ms, MetaStore.Ls, MetaStore.Rs, MetaStore.Md, MetaStore.Rd]
        (MetaStore.Ms :: [MetaStore.Ls, MetaStore.Rs, MetaStore.Md, MetaStore.Ld, MetaStore.Rd])))
    ?_
  show (if check_order seedStates MetaStore.Ld MetaState.IptSlot partial_order_map then
      validate_states (updateStates seedStates MetaStore.Ld MetaState.IptSlot) &&
        recur_check gen_store_order partial_order_map 5
          (updateStates seedStates MetaStore.Ld MetaState.IptSlot)
          [MetaStore.Ms, MetaStore.Ls, MetaStore.Rs, MetaStore.Md, MetaStore.Rd]
    else true) = false
  simp [hco, hval]

set_option maxRecDepth 100000 in
/-- C3: the pruning check does not behave as specified.  At the seed snapshot,
channel Md, still pending at Start, is required by the closed Precedence
Relation to transition before (Ld, IptSlot) (first conjunct), so the spec says
the advance of Ld must be skipped; but check_order returns True (second
conjunct), so the code explores the branch instead of pruning it. -/
theorem c3_pending_predecessor_not_pruned :
    pmGet partial_order_map (MetaStore.Md, MetaState.Start) (MetaStore.Ld, MetaState.IptSlot) =
      true ∧
    check_order seedStates MetaStore.Ld MetaState.IptSlot partial_order_map = true := by
  constructor
  · have h1 : pmGet partial_order_map (MetaStore.Md, MetaState.Start)
        (MetaStore.Md, MetaState.RedirectToPeer) = true := by
      show pmGet (compute_partially_ordered_map basicOrderedMap) _ _ = true
      exact pmGet_compute_mono
        (basic_intra_true MetaStore.Md MetaState.Start MetaState.RedirectToPeer
          (by decide) (by decide))
    have h2 : pmGet partial_order_map (MetaStore.Md, MetaState.RedirectToPeer)
        (MetaStore.Ld, MetaState.IptSlot) = true := by
      show pmGet (compute_partially_ordered_map basicOrderedMap) _ _ = true
      exact pmGet_compute_mono
        (by decide : pmGet basicOrderedMap (MetaStore.Md, MetaState.RedirectToPeer)
          (MetaStore.Ld, MetaState.IptSlot) = true)
    show pmGet (compute_partially_ordered_map basicOrderedMap) _ _ = true
    exact pmGet_compute_trans wellFormed_basic h1 h2
  · exact check_order_seed_Ld

/-- C4: check_order never rejects an available single-step advance: for every
snapshot drawing each channel's state from its declared list, and every
channel with a successor, the closed table holds the cell from the channel's
own current state to its successor, so the search's pruning step is vacuous. -/
theorem c4_check_order_never_prunes : ∀ (s : States),
    (∀ c : MetaStore, s c ∈ gen_store_order c) →
    ∀ (c : MetaStore) (ns : MetaState),
      get_next_state gen_store_order c (s c) = some ns →
      check_order s c ns partial_order_map = true := by
  intro s _ c ns h
  have hcell : pmGet partial_order_map (c, s c) (c, ns) = true := closed_next_cell h
  unfold check_order
  rw [List.any_eq_true]
  exact ⟨c, mem_metaStore_all c, hcell⟩

set_option maxRecDepth 100000 in
/-- Witness for C4 at the seed snapshot and channel Ms. -/
theorem c4_witness :
    (∀ c : MetaStore, seedStates c ∈ gen_store_order c) ∧
    get_next_state gen_store_order MetaStore.Ms (seedStates MetaStore.Ms) =
      some MetaState.MgrSet ∧
    check_order seedStates MetaStore.Ms MetaState.MgrSet partial_order_map = true :=
  ⟨by decide, by decide,
    c4_check_order_never_prunes seedStates (by decide) MetaStore.Ms MetaState.MgrSet (by decide)⟩

set_option maxRecDepth 100000 in
/-- C2 counterexample: the closed table holds the reflexive intra-channel pair
(Ms, MgrSet) to (Ms, MgrSet), which the declared strict order rejects, so the
intra-channel restriction of the closure is NOT the declared strict order. -/
theorem c2_counterexample :
    pmGet partial_order_map (MetaStore.Ms, MetaState.MgrSet) (MetaStore.Ms, MetaState.MgrSet) =
      true ∧
    declared_strictly_before MetaStore.Ms MetaState.MgrSet MetaState.MgrSet = false := by
  constructor
  · show pmGet (compute_partially_ordered_map basicOrderedMap) _ _ = true
    exact pmGet_compute_mono
      (basic_intra_true MetaStore.Ms MetaState.MgrSet MetaState.MgrSet (by decide) (by decide))
  · decide

set_option maxRecDepth 100000 in
/-- C2 amended: within one channel, the closed Precedence Relation holds a pair
exactly when the first state occurs at a non-final position and the second at
a non-initial position of the channel's declared list - the cross product
seeded by the generator, which includes reflexive and backward pairs of the
interior states as well as every strictly ordered pair. -/
theorem c2_intra_channel_cross_product : ∀ (c : MetaStore) (s1 s2 : MetaState),
    pmGet partial_order_map (c, s1) (c, s2) = true ↔
      (s1 ∈ (gen_store_order c).dropLast ∧ s2 ∈ (gen_store_order c).drop 1) := by
  intro c s1 s2
  constructor
  · intro h
    have hr := subRel_closed_closedRel (c, s1) (c, s2) h
    unfold closedRel at hr
    rw [Bool.and_eq_true, Bool.and_eq_true, decide_eq_true_eq, decide_eq_true_eq] at hr
    exact ⟨hr.1.2, hr.2⟩
  · intro h
    show pmGet (compute_partially_ordered_map basicOrderedMap) _ _ = true
    exact pmGet_compute_mono (basic_intra_true c s1 s2 h.1 h.2)

/-- Witness for the amended C2 at the adjacent pair (Ms, Start), (Ms, MgrSet). -/
theorem c2_witness :
    pmGet partial_order_map (MetaStore.Ms, MetaState.Start) (MetaStore.Ms, MetaState.MgrSet) =
      true :=
  (c2_intra_channel_cross_product MetaStore.Ms MetaState.Start MetaState.MgrSet).mpr
    ⟨by decide, by decide⟩

/-- C5: validate_states returns True exactly when the snapshot matches one of
the three boundary tuples under wildcard equality, or one of the two triples
is processing while the other is redirecting, in either direction. -/
theorem c5_validate_states_iff : ∀ s : States, validate_states s = true ↔
    ((∃ t ∈ valid_states, equal_tuple s t = true) ∨
     (check_processing (s .Ms, s .Ls, s .Rs) = true ∧
       check_redirecting (s .Md, s .Ld, s .Rd) = true) ∨
     (check_redirecting (s .Ms, s .Ls, s .Rs) = true ∧
       check_processing (s .Md, s .Ld, s .Rd) = true)) := by
  intro s
  unfold validate_states
  by_cases h1 : valid_states.any (fun t => equal_tuple s t) = true
  · rw [if_pos h1]
    simp only [true_iff]
    exact Or.inl (by rwa [List.any_eq_true] at h1)
  · rw [if_neg h1]
    by_cases h2 : (check_processing (s .Ms, s .Ls, s .Rs) &&
        check_redirecting (s .Md, s .Ld, s .Rd)) = true
    · rw [if_pos h2]
      rw [Bool.and_eq_true] at h2
      simp only [true_iff]
      exact Or.inr (Or.inl h2)
    · rw [if_neg h2]
      by_cases h3 : (check_redirecting (s .Ms, s .Ls, s .Rs) &&
          check_processing (s .Md, s .Ld, s .Rd)) = true
      · rw [if_pos h3]
        rw [Bool.and_eq_true] at h3
        simp only [true_iff]
        exact Or.inr (Or.inr h3)
      · rw [if_neg h3]
        constructor
        · intro hf
          exact absurd hf (by simp)
        · intro hr
          exfalso
          rcases hr with hr | hr | hr
          · exact h1 (List.any_eq_true.mpr hr)
          · apply h2
            rw [Bool.and_eq_true]
            exact hr
          · apply h3
            rw [Bool.and_eq_true]
            exact hr

/-- C6 counterexample: the first boundary tuple, with the non-Any position Ms
changed from its exemption value Start to Queue (and Rs instantiated to
Start), still validates True via the processing and redirecting rule, so a
single out-of-exemption change does not force validate_states to False. -/
theorem c6_counterexample :
    ((MetaState.Start, MetaState.Slot, MetaState.Any, MetaState.Start, MetaState.Start,
        MetaState.Slot) : Tuple6) ∈ valid_states ∧
    (MetaState.Queue ≠ MetaState.Start ∧ MetaState.Queue ≠ MetaState.Any) ∧
    validate_states (updateStates (tuple_snapshot
      (MetaState.Start, MetaState.Slot, MetaState.Any, MetaState.Start, MetaState.Start,
        MetaState.Slot) MetaState.Start) MetaStore.Ms MetaState.Queue) = true :=
  ⟨by decide, ⟨by decide, by decide⟩, by decide⟩

set_option maxRecDepth 100000 in
/-- C6 amended: every boundary tuple validates True with any state in the
Any-marked position Rs; and changing any single non-Any position to a
non-wildcard state different from that tuple's value makes the wildcard match
with that tuple fail (though the snapshot may still be valid via another rule). -/
theorem c6_boundary_tuples :
    (∀ t ∈ valid_states, ∀ x : MetaState, validate_states (tuple_snapshot t x) = true) ∧
    (∀ t ∈ valid_states, ∀ p : MetaStore, p ≠ MetaStore.Rs →
      ∀ v x : MetaState, v ≠ tuple_component t p → v ≠ MetaState.Any →
        equal_tuple (updateStates (tuple_snapshot t x) p v) t = false) := by
  constructor
  · intro t ht x
    revert x
    fin_cases ht <;> decide
  · intro t ht
    fin_cases ht <;> decide

/-- Witness for the amended C6 at the first boundary tuple. -/
theorem c6_witness :
    validate_states (tuple_snapshot (MetaState.Start, MetaState.Slot, MetaState.Any,
      MetaState.Start, MetaState.Start, MetaState.Slot) MetaState.End) = true ∧
    equal_tuple (updateStates (tuple_snapshot (MetaState.Start, MetaState.Slot, MetaState.Any,
      MetaState.Start, MetaState.Start, MetaState.Slot) MetaState.Start) MetaStore.Ms
      MetaState.Queue)
      (MetaState.Start, MetaState.Slot, MetaState.Any, MetaState.Start, MetaState.Start,
        MetaState.Slot) = false :=
  ⟨c6_boundary_tuples.1 _ (by decide) MetaState.End,
   c6_boundary_tuples.2 _ (by decide) MetaStore.Ms (by decide) MetaState.Queue MetaState.Start
     (by decide) (by decide)⟩

/-- C7: for every well-formed (square) input table, the relation returned by
compute_partially_ordered_map is transitive, and it contains every pair marked
True in the input table. -/
theorem c7_closure_transitive_contains : ∀ m : PMap, WellFormed m →
    (∀ a b c : Key, pmGet (compute_partially_ordered_map m) a b = true →
      pmGet (compute_partially_ordered_map m) b c = true →
      pmGet (compute_partially_ordered_map m) a c = true) ∧
    (∀ a b : Key, pmGet m a b = true → pmGet (compute_partially_ordered_map m) a b = true) :=
  fun _ hw =>
    ⟨fun _ _ _ hab hbc => pmGet_compute_trans hw hab hbc,
     fun _ _ h => pmGet_compute_mono h⟩

set_option maxRecDepth 100000 in
/-- Witness for C7 at the generated pre-closure table. -/
theorem c7_witness : WellFormed basicOrderedMap ∧
    ((∀ a b c : Key, pmGet (compute_partially_ordered_map basicOrderedMap) a b = true →
      pmGet (compute_partially_ordered_map basicOrderedMap) b c = true →
      pmGet (compute_partially_ordered_map basicOrderedMap) a c = true) ∧
    (∀ a b : Key, pmGet basicOrderedMap a b = true →
      pmGet (compute_partially_ordered_map basicOrderedMap) a b = true)) :=
  ⟨wellFormed_basic, c7_closure_transitive_contains basicOrderedMap wellFormed_basic⟩

/-- C8: the closure loop terminates on every finite input table: any fuel of
at least one more than the number of table cells yields the same result as the
fuel used by compute_partially_ordered_map, because each pass either strictly
increases the True count, which is bounded by the cell count, or stops. -/
theorem c8_compute_terminates : ∀ (m : PMap) (fuel : Nat),
    totalCells m + 1 ≤ fuel →
    computeAux fuel (get_table_true_count m) m = compute_partially_ordered_map m := by
  intro m fuel h
  show computeAux fuel (get_table_true_count m) m =
    computeAux (totalCells m + 1) (get_table_true_count m) m
  exact computeAux_fuel_irrel fuel (totalCells m + 1) m (by omega) (by omega)

/-- Witness for C8 at a small concrete table with surplus fuel. -/
theorem c8_witness : totalCells sampleTable + 1 ≤ 9 ∧
    computeAux 9 (get_table_true_count sampleTable) sampleTable =
      compute_partially_ordered_map sampleTable :=
  ⟨by decide, c8_compute_terminates sampleTable 9 (by decide)⟩

/-- C9: the wildcard state Any never enters the closed relation as a positive
fact - every cell whose row key or column key carries Any is False - and
get_next_state never returns Any for any channel. -/
theorem c9_any_never_positive :
    (∀ a b : Key, a.2 = MetaState.Any ∨ b.2 = MetaState.Any →
      pmGet partial_order_map a b = false) ∧
    (∀ (c : MetaStore) (s : MetaState),
      get_next_state gen_store_order c s ≠ some MetaState.Any) := by
  constructor
  · intro a b hany
    by_contra hne
    have htrue : pmGet partial_order_map a b = true := by
      cases h : pmGet partial_order_map a b
      · exact absurd h hne
      · rfl
    have hfree := subRel_closed_anyFree a b htrue
    unfold anyFreeRel at hfree
    rw [Bool.and_eq_true, decide_eq_true_eq, decide_eq_true_eq] at hfree
    rcases hany with h | h
    · exact hfree.1 h
    · exact hfree.2 h
  · decide

/-- Witness for C9 at an Any-keyed cell. -/
theorem c9_witness :
    pmGet partial_order_map (MetaStore.Ms, MetaState.Any) (MetaStore.Ms, MetaState.Start) =
      false ∧
    get_next_state gen_store_order MetaStore.Ms MetaState.Start ≠ some MetaState.Any :=
  ⟨c9_any_never_positive.1 (MetaStore.Ms, MetaState.Any) (MetaStore.Ms, MetaState.Start)
      (Or.inl rfl),
   c9_any_never_positive.2 MetaStore.Ms MetaState.Start⟩

/-- C10: each recursion step of the search is frame-preserving: the candidate
snapshot built by updateStates holds the new state at the chosen channel and
agrees with the current snapshot on every other channel; the current snapshot,
a pure value, is unchanged. -/
theorem c10_update_frame : ∀ (s : States) (store : MetaStore) (st : MetaState),
    updateStates s store st store = st ∧
    ∀ c : MetaStore, c ≠ store → updateStates s store st c = s c := by
  intro s store st
  constructor
  · unfold updateStates
    rw [if_pos rfl]
  · intro c hc
    unfold updateStates
    rw [if_neg hc]

/-- Witness for C10 at the seed snapshot with Ld advanced to IptSlot. -/
theorem c10_witness :
    updateStates seedStates MetaStore.Ld MetaState.IptSlot MetaStore.Ld = MetaState.IptSlot ∧
    updateStates seedStates MetaStore.Ld MetaState.IptSlot MetaStore.Ms =
      seedStates MetaStore.Ms :=
  ⟨(c10_update_frame seedStates MetaStore.Ld MetaState.IptSlot).1,
   (c10_update_frame seedStates MetaStore.Ld MetaState.IptSlot).2 MetaStore.Ms (by decide)⟩
